import Mathlib

/-!
Verification of the braze-sdk-demo-builder workflow code.

The Python sources are shallowly embedded: strings are modelled as
`List Char`, Python dictionaries of state updates as Lean structures with
`Option` fields (`none` marks an absent dictionary key), exceptions as
`Except`, and a stage's delegated LLM / browser calls as explicit
`Except`-valued parameters supplied by the environment.
-/


set_option autoImplicit false

namespace BrazeSpec

/-! ### Python string primitives on `List Char` -/

/-- Locate the first (leftmost) occurrence of the separator `sep` in a
string, returning the text strictly before it and the text strictly after
it.  `none` when `sep` does not occur.  This is the scanning primitive
underlying Python's `sep in s` and `s.split(sep)`. -/
def findSplit (sep : List Char) : List Char → Option (List Char × List Char)
  | [] => none
  | c :: cs =>
    if sep.isPrefixOf (c :: cs) then some ([], (c :: cs).drop sep.length)
    else (findSplit sep cs).map (fun p => (c :: p.1, p.2))

/-- Python's `sep in s` (substring membership) for a non-empty `sep`. -/
def occurs (sep s : List Char) : Bool := (findSplit sep s).isSome

/-- Python's `s.split(sep)[0]`: the text before the first occurrence of
`sep`, or the whole string when `sep` does not occur. -/
def beforeFirst (sep s : List Char) : List Char :=
  ((findSplit sep s).map Prod.fst).getD s

/-- The text after the first occurrence of `sep` (the whole string when
`sep` does not occur; only used under an `occurs` guard). -/
def afterFirst (sep s : List Char) : List Char :=
  ((findSplit sep s).map Prod.snd).getD s

/-- Python's `s.split(sep)[1]` for a separator known to occur: the segment
between the first occurrence and the next non-overlapping occurrence (or
the rest of the string when the separator occurs only once). -/
def pySecond (sep s : List Char) : List Char :=
  beforeFirst sep (afterFirst sep s)

/-- Python's `s.strip()`: drop leading and trailing whitespace. -/
def pyStrip (s : List Char) : List Char :=
  ((s.dropWhile Char.isWhitespace).reverse.dropWhile Char.isWhitespace).reverse

/-- The opening fence token `"```html"` recognised by the cleaner. -/
def fenceHtml : List Char := "```html".toList

/-- The generic fence token `"```"`. -/
def fence : List Char := "```".toList

/-- The token `"<!DOCTYPE"` tested (after upper-casing) by the cleaner. -/
def doctypeTok : List Char := "<!DOCTYPE".toList

/-- The token `"<HTML"` tested (after upper-casing) by the cleaner. -/
def htmlTok : List Char := "<HTML".toList

/-- The doctype line prepended by the cleaner. -/
def doctypeLine : List Char := "<!DOCTYPE html>\n".toList

/-- The markdown-fence removal step of
`braze_code_gen/utils/html_utils.clean_html_response` (lines 17-26):
if `"```html"` occurs, take `split("```html")[1]` and, when `"```"` occurs
in that segment, cut at it (`split("```")[0]`); otherwise if `"```"`
occurs, take `split("```")[1]`. -/
def stripFences (s : List Char) : List Char :=
  if occurs fenceHtml s then
    let r := pySecond fenceHtml s
    if occurs fence r then beforeFirst fence r else r
  else if occurs fence s then
    pySecond fence s
  else s

/-- The doctype-insertion step of `clean_html_response` (lines 31-34):
when the upper-cased text does not start with `"<!DOCTYPE"` but does start
with `"<HTML"`, prepend `"<!DOCTYPE html>\n"`. -/
def ensureDoctype (s : List Char) : List Char :=
  if doctypeTok.isPrefixOf (s.map Char.toUpper) then s
  else if htmlTok.isPrefixOf (s.map Char.toUpper) then doctypeLine ++ s
  else s

/-- `braze_code_gen/utils/html_utils.clean_html_response`: strip markdown
fences, strip surrounding whitespace, then ensure a doctype.
`RefinementAgent._clean_html_response` and
`CodeGenerationAgent._clean_html_response` duplicate this function
verbatim, so this single definition embeds all three. -/
def clean_html_response (s : List Char) : List Char :=
  ensureDoctype (pyStrip (stripFences s))

/-- The backquote character, the building block of the fence tokens. -/
def bq : Char := "`".toList.headI

/-! ### Data model

Pydantic models from `braze_code_gen/core/models.py`, with exactly the
fields the embedded code paths construct or read.  A pydantic model
instance is always truthy in Python, which the embedding relies on where
the source tests `if not value`. -/

/-- A value stored under a Python dictionary key: the key may be absent,
present with value `None`, or present with a real value.  Distinguishing
`absent` from `pynone` matters because `state["k"]` raises `KeyError`
only in the former case while `state.get("k")` returns `None` in both. -/
inductive DictField (α : Type) where
  | absent : DictField α
  | pynone : DictField α
  | val : α → DictField α
deriving DecidableEq

/-- `ValidationIssue` model. -/
structure ValidationIssue where
  severity : String
  category : String
  message : String
  fix_suggestion : String
deriving DecidableEq

/-- `ValidationReport` model. -/
structure ValidationReport where
  passed : Bool
  issues : List ValidationIssue
  braze_sdk_loaded : Bool
  console_errors : List String
  screenshots : List String
  test_timestamp : String
deriving DecidableEq

/-- `GeneratedCode` model; the html text is kept as `List Char` because
the cleaner scans it. -/
structure GeneratedCode where
  html : List Char
  braze_sdk_initialized : Bool
  features_implemented : List String
deriving DecidableEq

/-- `SDKFeature` model. -/
structure SDKFeature where
  name : String
  description : String
  sdk_methods : List String
  implementation_notes : String
  priority : Nat
deriving DecidableEq

/-- `SDKFeaturePlan` model; title and description are `List Char` so that
substring containment can be stated. -/
structure SDKFeaturePlan where
  features : List SDKFeature
  page_title : List Char
  page_description : List Char
  branding_constraints : Option String
deriving DecidableEq

/-- `ColorPalette` part of the branding model. -/
structure ColorPalette where
  primary : String
  secondary : String
  accent : String
  background : String
  text : String
deriving DecidableEq

/-- `Typography` part of the branding model. -/
structure Typography where
  primary_font : String
  heading_font : String
deriving DecidableEq

/-- `BrandingData` model. -/
structure BrandingData where
  colors : ColorPalette
  typography : Typography
  extraction_success : Bool
  website_url : String
  fallback_used : Bool
deriving DecidableEq

/-- `BrazeAPIConfig` model; the embedded code paths only test its
dictionary presence and truthiness, never read its fields. -/
structure BrazeAPIConfig where
  api_key : String
deriving DecidableEq

/-! ### C1 and C5: the Router and the Validation stage's routing -/

/-- State slice read by the router; `none` models a missing key, so that
`Option.getD` is exactly Python's `state.get(key, default)`. -/
structure RouterState where
  validation_passed : Option Bool
  refinement_iteration : Option Nat
  max_refinement_iterations : Option Nat
deriving DecidableEq

/-- `BrazeCodeGeneratorWorkflow._route_after_validation`
(`core/workflow.py` lines 92-120): route to `"finalize"` when validation
passed or the iteration budget is exhausted, else `"refine"`. -/
def route_after_validation (st : RouterState) : String :=
  if st.validation_passed.getD false then "finalize"
  else if st.refinement_iteration.getD 0 ≥ st.max_refinement_iterations.getD 3
    then "finalize"
  else "refine"

/-- The `next_step` computation inside `ValidationAgent.process`
(`agents/validation_agent.py` lines 107-121), as a function of the LLM
judgment and the two `state.get` counter reads. -/
def validation_next_step (passed : Bool) (itF mxF : Option Nat) : String :=
  if passed then "finalize"
  else if itF.getD 0 < mxF.getD 3 then "refine"
  else "finalize"

/-! ### C4: the validation judgment -/

/-- Python's `s.upper()` (ASCII letters, which is all the scanned tokens
use). -/
def upperL (s : List Char) : List Char := s.map Char.toUpper

/-- The token `"PASS"`. -/
def passTok : List Char := "PASS".toList

/-- The token `"FAIL"`. -/
def failTok : List Char := "FAIL".toList

/-- Decision dict returned by `_analyze_validation_report`. -/
structure ValidationDecision where
  passed : Bool
  reasoning : List Char
deriving DecidableEq

/-- `ValidationAgent._analyze_validation_report` judgment core
(`agents/validation_agent.py` lines 159-182): the delegated judge-LLM call
is supplied as an `Except` (its `error` case is the Python exception);
`passed` is `"PASS" in text.upper() and "FAIL" not in text.upper()`, and
an exception defaults to `passed = False`. -/
def analyze_validation_report (llm : Except String (List Char)) :
    ValidationDecision :=
  match llm with
  | .ok content =>
    let decision_text := upperL content
    { passed := occurs passTok decision_text && !(occurs failTok decision_text),
      reasoning := content }
  | .error e =>
    { passed := false, reasoning := ("Analysis error: " ++ e).toList }

/-! ### C2: the Refinement stage -/

/-- Partial state update returned by `RefinementAgent.process`; a `none`
field is a key absent from the returned dict. -/
structure RefinementUpdate where
  generated_code : Option GeneratedCode
  refinement_iteration : Option Nat
  error : Option String
  next_step : String
deriving DecidableEq

/-- `RefinementAgent.process` (`agents/refinement_agent.py` lines 34-118).
The delegated LLM call is an `Except` parameter; `generated_code` and
`validation_report` are the subscripted state values (the source indexes
them directly, so presence is assumed — `None` values still reach the
`if not ... or not ...` guard); the counters are the `state.get` reads
with Python defaults.  The `current >= max - 1` comparison is over `Int`
exactly as Python computes it. -/
def refinement_process (llm : Except String (List Char))
    (generated_code : Option GeneratedCode)
    (validation_report : Option ValidationReport)
    (itF mxF : Option Nat) : RefinementUpdate :=
  let current_iteration := itF.getD 0
  match generated_code, validation_report with
  | some gc, some _ =>
    (match llm with
     | .ok content =>
       let refined_html := clean_html_response content
       let refined_code : GeneratedCode :=
         { html := refined_html,
           braze_sdk_initialized := gc.braze_sdk_initialized,
           features_implemented := gc.features_implemented }
       { generated_code := some refined_code,
         refinement_iteration := some (current_iteration + 1),
         error := none,
         next_step := "validation" }
     | .error e =>
       if (current_iteration : Int) ≥ (mxF.getD 3 : Int) - 1 then
         { generated_code := none, refinement_iteration := none,
           error := some ("Refinement failed: " ++ e),
           next_step := "finalize" }
       else
         { generated_code := none,
           refinement_iteration := some (current_iteration + 1),
           error := some ("Refinement failed: " ++ e),
           next_step := "finalize" })
  | _, _ =>
    { generated_code := none, refinement_iteration := none,
      error := some "Cannot refine without code and validation report",
      next_step := "error_handler" }

/-! ### C3: stages and exception propagation -/

/-- State slice read by `ValidationAgent.process`.  `generated_code` is a
`DictField` because the source subscripts it (`state["generated_code"]`),
which raises `KeyError` when the key is absent. -/
structure VState where
  generated_code : DictField GeneratedCode
  refinement_iteration : Option Nat
  max_refinement_iterations : Option Nat
deriving DecidableEq

/-- Partial state update returned by `ValidationAgent.process`. -/
structure VUpdate where
  validation_report : Option ValidationReport
  validation_passed : Option Bool
  error : Option String
  next_step : String
deriving DecidableEq

/-- The error report built when browser testing raises
(`agents/validation_agent.py` lines 74-87). -/
def error_report (e : String) : ValidationReport :=
  let issue : ValidationIssue :=
    { severity := "error", category := "browser",
      message := "Browser testing failed: " ++ e,
      fix_suggestion := "Check HTML syntax and Braze SDK integration" }
  { passed := false,
    issues := [issue],
    braze_sdk_loaded := false,
    console_errors := [e],
    screenshots := [],
    test_timestamp := "" }

/-- The passing report used when browser testing is disabled
(`agents/validation_agent.py` lines 90-98). -/
def passing_report : ValidationReport :=
  { passed := true, issues := [], braze_sdk_loaded := true,
    console_errors := [], screenshots := [], test_timestamp := "" }

/-- `ValidationAgent.process` (`agents/validation_agent.py` lines 47-127):
the browser test and judge-LLM delegated calls are `Except` parameters;
the result is `Except`-valued, `.error` marking a Python exception
escaping to the caller (which happens exactly on the `KeyError` of an
absent `generated_code` key). -/
def validation_process (enable_browser_testing has_browser_tester : Bool)
    (browser : Except String ValidationReport)
    (llm : Except String (List Char)) (st : VState) :
    Except String VUpdate :=
  match st.generated_code with
  | .absent => .error "KeyError: generated_code"
  | .pynone =>
    .ok { validation_report := none, validation_passed := none,
          error := some "No generated code available",
          next_step := "error_handler" }
  | .val _ =>
    let validation_report :=
      if enable_browser_testing && has_browser_tester then
        match browser with
        | .ok r => r
        | .error e => error_report e
      else passing_report
    let decision := analyze_validation_report llm
    let next_step := validation_next_step decision.passed
      st.refinement_iteration st.max_refinement_iterations
    .ok { validation_report := some validation_report,
          validation_passed := some decision.passed,
          error := none,
          next_step := next_step }

/-- State slice read by `CodeGenerationAgent.process`; the three
subscripted keys are `DictField`s.  The `research_results` read
(`state.get`) only feeds the delegated call's prompt, so it does not
appear in the update and is omitted. -/
structure CGState where
  feature_plan : DictField SDKFeaturePlan
  branding_data : DictField BrandingData
  braze_api_config : DictField BrazeAPIConfig
deriving DecidableEq

/-- Partial state update returned by `CodeGenerationAgent.process`. -/
structure CGUpdate where
  generated_code : Option GeneratedCode
  error : Option String
  next_step : String
deriving DecidableEq

/-- `CodeGenerationAgent.process` (`agents/code_generation_agent.py`
lines 35-116): subscripting an absent key raises `KeyError`; any `None`
among the three values trips the `not all([...])` guard; otherwise the
delegated LLM response is cleaned and wrapped, and a delegated-call
exception becomes an error update. -/
def code_generation_process (llm : Except String (List Char))
    (st : CGState) : Except String CGUpdate :=
  match st.feature_plan, st.branding_data, st.braze_api_config with
  | .absent, _, _ => .error "KeyError: feature_plan"
  | _, .absent, _ => .error "KeyError: branding_data"
  | _, _, .absent => .error "KeyError: braze_api_config"
  | .pynone, _, _ | _, .pynone, _ | _, _, .pynone =>
    .ok { generated_code := none,
          error := some "Missing feature plan, branding, or API config",
          next_step := "error_handler" }
  | .val fp, .val _, .val _ =>
    match llm with
    | .ok content =>
      let generated : GeneratedCode :=
        { html := clean_html_response content,
          braze_sdk_initialized := true,
          features_implemented := fp.features.map (fun f => f.name) }
      .ok { generated_code := some generated,
            error := none, next_step := "validation" }
    | .error e =>
      .ok { generated_code := none,
            error := some ("Code generation failed: " ++ e),
            next_step := "error_handler" }

/-! ### C8: Planning's default fallback plan -/

/-- Python's `s.capitalize()`: first character upper-cased, the rest
lower-cased. -/
def pyCapitalize (s : List Char) : List Char :=
  match s with
  | [] => []
  | c :: cs => Char.toUpper c :: cs.map Char.toLower

/-- Python's `s.replace(old, new)` for a non-empty `old`: every leftmost
non-overlapping occurrence replaced.  Fuel-indexed so the recursion is
structural; `pyReplaceAll` supplies `s.length`, which always suffices. -/
def pyReplaceAllAux (old new : List Char) : Nat → List Char → List Char
  | _, [] => []
  | 0, s => s
  | fuel + 1, c :: cs =>
    if old.isPrefixOf (c :: cs) && !old.isEmpty then
      new ++ pyReplaceAllAux old new fuel ((c :: cs).drop old.length)
    else
      c :: pyReplaceAllAux old new fuel cs

/-- Python's `s.replace(old, new)` for a non-empty `old`. -/
def pyReplaceAll (old new s : List Char) : List Char :=
  pyReplaceAllAux old new s.length s

/-- The `urlparse(url).netloc` of the Python standard library, for the
absolute `scheme://host/...` URLs that reach `_create_default_plan`: the
text between `"://"` and the next `/`, `?` or `#`. -/
def urlparse_netloc (url : List Char) : List Char :=
  if occurs "://".toList url then
    (afterFirst "://".toList url).takeWhile
      (fun c => !(c == '/' || c == '?' || c == '#'))
  else []

/-- The domain computed by `LeadAgent._create_default_plan`
(`agents/lead_agent.py` lines 184-189):
`parsed.netloc.replace('www.', '').split('.')[0].capitalize()` when a
(truthy) URL is present, else the default `"Customer"`. -/
def default_plan_domain (customer_website_url : Option (List Char)) :
    List Char :=
  match customer_website_url with
  | none => "Customer".toList
  | some url =>
    if url.isEmpty then "Customer".toList
    else pyCapitalize (beforeFirst ".".toList
      (pyReplaceAll "www.".toList [] (urlparse_netloc url)))

/-- `LeadAgent._create_default_plan` (`agents/lead_agent.py` lines
170-211): the deterministic two-feature fallback plan.  `user_request`
is accepted and ignored exactly as in the source. -/
def create_default_plan (user_request : List Char)
    (customer_website_url : Option (List Char)) : SDKFeaturePlan :=
  let domain := default_plan_domain customer_website_url
  let tracking : SDKFeature :=
    { name := "User Tracking",
      description := "Track custom events for user interactions",
      sdk_methods := ["braze.logCustomEvent()"],
      implementation_notes :=
        "Add event tracking to buttons and form submissions",
      priority := 1 }
  let attributes : SDKFeature :=
    { name := "User Attributes",
      description := "Collect and set user attributes",
      sdk_methods := ["braze.getUser().setEmail()",
        "braze.getUser().setFirstName()"],
      implementation_notes := "Create a form to collect user information",
      priority := 1 }
  { features := [tracking, attributes],
    page_title := "Braze SDK Demo - ".toList ++ domain,
    page_description :=
      "Interactive Braze SDK demonstration for ".toList ++ domain,
    branding_constraints :=
      match customer_website_url with
      | some url =>
        if url.isEmpty then none
        else some "Use customer branding colors and fonts"
      | none => none }

/-! ### C9 and C10: streaming execution -/

/-- The state-update dictionary a completed node contributes to the
stream; `none` marks an absent key (for the `error` check, a key present
with `None` behaves identically to an absent one, so the two are
collapsed).  `messages` holds the `content` of each message in the
output's message list. -/
structure NodeOutput where
  error : Option String
  messages : List String
  validation_passed : Option Bool
  refinement_iteration : Option Nat
  export_file_path : Option String
  branding_data : Option BrandingData
  generated_code : Option GeneratedCode
deriving DecidableEq

/-- One chunk of `self.graph.stream(...)`: LangGraph yields, after each
node completes, a single-entry dict mapping the completed node's name to
its state update (`node_name = list(chunk.keys())[0]`).  Falsy/empty
chunks, which the loop skips with `continue`, are not represented. -/
structure Chunk where
  node : String
  output : NodeOutput
deriving DecidableEq

/-- The update dictionaries yielded by
`BrazeCodeGeneratorWorkflow.stream_workflow`, by their `type` key. -/
inductive StreamEvent where
  | node_start (node status : String)
  | node_complete (node status : String)
  | error (message : String)
  | message (content : String)
  | complete (export_file_path : String) (branding_data : Option BrandingData)
      (generated_code : Option GeneratedCode)
deriving DecidableEq

/-- The `"type"` field of a streamed update dictionary. -/
def eventType : StreamEvent → String
  | .node_start .. => "node_start"
  | .node_complete .. => "node_complete"
  | .error _ => "error"
  | .message _ => "message"
  | .complete .. => "complete"

/-- Truthiness of `"error" in node_output and node_output["error"]`. -/
def err_truthy (o : NodeOutput) : Bool :=
  match o.error with
  | some e => !(e == "")
  | none => false

/-- `BrazeCodeGeneratorWorkflow._format_node_status`
(`core/workflow.py` lines 215-244). -/
def format_node_status (node : String) (output : NodeOutput) : String :=
  let base :=
    if node = "planning" then "✓ Feature plan created with customer branding"
    else if node = "research" then "✓ Braze documentation research complete"
    else if node = "code_generation" then "✓ Landing page code generated"
    else if node = "validation" then
      (if output.validation_passed.getD false then
        "✓ Browser validation complete"
      else "⚠ Validation issues detected, starting refinement")
    else if node = "refinement" then
      "✓ Code refined (iteration " ++
        toString (output.refinement_iteration.getD 0) ++ ")"
    else if node = "finalization" then "✓ Landing page finalized and exported"
    else "✓ " ++ node ++ " complete"
  if err_truthy output then base ++ " (with warnings)" else base

/-- The `error` event of one chunk (lines 182-187): yielded when the
output has a truthy `error` value. -/
def err_events (c : Chunk) : List StreamEvent :=
  match c.output.error with
  | some e => if e == "" then [] else [StreamEvent.error e]
  | none => []

/-- The `message` event of one chunk (lines 189-196): yielded when the
output's message list is non-empty and its last message has truthy
content. -/
def msg_events (c : Chunk) : List StreamEvent :=
  match c.output.messages.getLast? with
  | some m => if m == "" then [] else [StreamEvent.message m]
  | none => []

/-- The events `stream_workflow` yields for one chunk (lines 162-196):
`node_start`, then `node_complete`, then the error event, then the
message event. -/
def chunk_events (c : Chunk) : List StreamEvent :=
  [StreamEvent.node_start c.node ("Starting " ++ c.node ++ "...")] ++
  [StreamEvent.node_complete c.node (format_node_status c.node c.output)] ++
  err_events c ++ msg_events c

/-- The trailing `complete` event (lines 198-206): emitted when a final
state exists (at least one chunk) and it contains `export_file_path`. -/
def complete_events (chunks : List Chunk) : List StreamEvent :=
  match chunks.getLast? with
  | some c =>
    match c.output.export_file_path with
    | some pth =>
      [StreamEvent.complete pth c.output.branding_data c.output.generated_code]
    | none => []
  | none => []

/-- `BrazeCodeGeneratorWorkflow.stream_workflow` (`core/workflow.py` lines
137-213) as a function of the chunk sequence the graph produced before
either finishing (`exc = none`) or raising (`exc = some e`, the `except`
branch, which yields a final `error` event instead of the `complete`
event). -/
def stream_workflow (chunks : List Chunk) (exc : Option String) :
    List StreamEvent :=
  match exc with
  | some e =>
    chunks.flatMap chunk_events ++ [StreamEvent.error ("Workflow error: " ++ e)]
  | none => chunks.flatMap chunk_events ++ complete_events chunks

/-- A concrete generated-code value for counterexamples and witnesses. -/
def gc_example : GeneratedCode :=
  { html := "<html></html>".toList, braze_sdk_initialized := true,
    features_implemented := ["User Tracking"] }

/-- A concrete validation report for counterexamples and witnesses. -/
def vr_example : ValidationReport :=
  { passed := false, issues := [], braze_sdk_loaded := false,
    console_errors := [], screenshots := [], test_timestamp := "" }

/-- Adjacency property of a streamed event list: every `node_start` for a
node is immediately followed by a `node_complete` for the same node. -/
def startAdjacent (l : List StreamEvent) : Prop :=
  ∀ i n s, l.get? i = some (StreamEvent.node_start n s) →
    ∃ s2, l.get? (i + 1) = some (StreamEvent.node_complete n s2)

/-- An empty node output for witnesses. -/
def out_example : NodeOutput :=
  { error := none, messages := [], validation_passed := none,
    refinement_iteration := none, export_file_path := none,
    branding_data := none, generated_code := none }

/-! ### Lemmas about the string primitives -/

theorem occurs_nil (sep : List Char) : occurs sep [] = false := rfl

theorem occurs_cons_of_tail {sep cs : List Char} (c : Char)
    (h : occurs sep cs = true) : occurs sep (c :: cs) = true := by
  unfold occurs findSplit
  split
  · rfl
  · unfold occurs at h
    cases hfs : findSplit sep cs with
    | none => rw [hfs] at h; simp at h
    | some p => simp [hfs]

theorem occurs_of_isPrefixOf {sep cs : List Char} {c : Char}
    (h : sep.isPrefixOf (c :: cs) = true) : occurs sep (c :: cs) = true := by
  unfold occurs findSplit
  simp [h]

theorem findSplit_eq_some {sep s p q : List Char}
    (h : findSplit sep s = some (p, q)) : s = p ++ sep ++ q := by
  induction s generalizing p q with
  | nil => simp [findSplit] at h
  | cons c cs ih =>
    rw [findSplit] at h
    by_cases hpre : sep.isPrefixOf (c :: cs)
    · rw [if_pos hpre, Option.some.injEq, Prod.ext_iff] at h
      obtain ⟨hp, hq⟩ := h
      simp only at hp hq
      obtain ⟨t, ht⟩ := List.isPrefixOf_iff_prefix.mp hpre
      have hq' : q = t := by rw [← hq, ← ht, List.drop_left]
      rw [← hp, hq', ← ht]
      simp
    · rw [if_neg hpre] at h
      cases hfs : findSplit sep cs with
      | none => rw [hfs] at h; simp at h
      | some pr =>
        rw [hfs] at h
        simp only [Option.map_some', Option.some.injEq, Prod.ext_iff] at h
        obtain ⟨hp, hq⟩ := h
        have hcs : cs = pr.1 ++ sep ++ pr.2 := ih (by rw [hfs])
        rw [← hp, ← hq, hcs]
        simp

theorem beforeFirst_prefix_self (sep s : List Char) : beforeFirst sep s <+: s := by
  induction s with
  | nil => simp [beforeFirst, findSplit]
  | cons c cs ih =>
    unfold beforeFirst findSplit
    by_cases hpre : sep.isPrefixOf (c :: cs)
    · simp [hpre]
    · rw [if_neg hpre]
      cases hfs : findSplit sep cs with
      | none => simp
      | some p =>
        simp only [Option.map_some', Option.getD_some]
        have : beforeFirst sep cs = p.1 := by simp [beforeFirst, hfs]
        exact (List.cons_prefix_cons).mpr ⟨rfl, this ▸ ih⟩

theorem not_occurs_beforeFirst (sep s : List Char) :
    occurs sep (beforeFirst sep s) = false := by
  induction s with
  | nil => simp [beforeFirst, findSplit, occurs]
  | cons c cs ih =>
    by_cases hpre : sep.isPrefixOf (c :: cs)
    · have hb : beforeFirst sep (c :: cs) = [] := by
        simp [beforeFirst, findSplit, hpre]
      rw [hb, occurs_nil]
    · cases hfs : findSplit sep cs with
      | none =>
        have hb : beforeFirst sep (c :: cs) = c :: cs := by
          simp [beforeFirst, findSplit, hpre, hfs]
        rw [hb]
        unfold occurs findSplit
        simp [hpre, hfs]
      | some p =>
        have hb : beforeFirst sep (c :: cs) = c :: p.1 := by
          simp [beforeFirst, findSplit, hpre, hfs]
        have hcs : beforeFirst sep cs = p.1 := by simp [beforeFirst, hfs]
        have ihp : occurs sep p.1 = false := hcs ▸ ih
        have hp1 : p.1 <+: cs := hcs ▸ beforeFirst_prefix_self sep cs
        have hpre2 : ¬ sep.isPrefixOf (c :: p.1) = true := by
          intro hcontra
          apply hpre
          apply List.isPrefixOf_iff_prefix.mpr
          exact (List.isPrefixOf_iff_prefix.mp hcontra).trans
            ((List.cons_prefix_cons).mpr ⟨rfl, hp1⟩)
        rw [hb]
        unfold occurs findSplit
        rw [if_neg hpre2]
        have hfp : findSplit sep p.1 = none := by
          unfold occurs at ihp
          cases hx : findSplit sep p.1 with
          | none => rfl
          | some _ => rw [hx] at ihp; simp at ihp
        rw [hfp]
        rfl

theorem occurs_append_right {sep s : List Char} (t : List Char)
    (h : occurs sep s = true) : occurs sep (t ++ s) = true := by
  induction t with
  | nil => exact h
  | cons c t ih => exact occurs_cons_of_tail c ih

theorem occurs_append_left {sep s : List Char} (t : List Char)
    (h : occurs sep s = true) : occurs sep (s ++ t) = true := by
  induction s with
  | nil => rw [occurs_nil] at h; cases h
  | cons c cs ih =>
    by_cases hpre : sep.isPrefixOf (c :: cs)
    · have hpfx : sep <+: (c :: cs) ++ t :=
        (List.isPrefixOf_iff_prefix.mp hpre).trans (List.prefix_append _ t)
      exact occurs_of_isPrefixOf (List.isPrefixOf_iff_prefix.mpr hpfx)
    · have htl : occurs sep cs = true := by
        unfold occurs findSplit at h
        rw [if_neg hpre] at h
        unfold occurs
        cases hx : findSplit sep cs with
        | none => rw [hx] at h; simp at h
        | some _ => rfl
      exact occurs_cons_of_tail c (ih htl)

theorem occurs_mono_of_leading {sep₁ sep₂ s : List Char} (hp : sep₁ <+: sep₂)
    (h : occurs sep₂ s = true) : occurs sep₁ s = true := by
  induction s with
  | nil => rw [occurs_nil] at h; cases h
  | cons c cs ih =>
    by_cases hpre : sep₂.isPrefixOf (c :: cs)
    · exact occurs_of_isPrefixOf (List.isPrefixOf_iff_prefix.mpr
        (hp.trans (List.isPrefixOf_iff_prefix.mp hpre)))
    · have htl : occurs sep₂ cs = true := by
        unfold occurs findSplit at h
        rw [if_neg hpre] at h
        unfold occurs
        cases hx : findSplit sep₂ cs with
        | none => rw [hx] at h; simp at h
        | some _ => rfl
      exact occurs_cons_of_tail c (ih htl)

theorem occurs_of_inner {sep s₁ s₂ : List Char} (hinf : s₁ <:+: s₂)
    (h : occurs sep s₁ = true) : occurs sep s₂ = true := by
  obtain ⟨u, v, rfl⟩ := hinf
  rw [List.append_assoc]
  exact occurs_append_right u (occurs_append_left v h)

theorem findSplit_append_free {c : Char} {cs d s : List Char} (hd : c ∉ d) :
    findSplit (c :: cs) (d ++ s) =
      (findSplit (c :: cs) s).map (fun p => (d ++ p.1, p.2)) := by
  induction d with
  | nil =>
    simp only [List.nil_append]
    cases hx : findSplit (c :: cs) s with
    | none => rfl
    | some p => rfl
  | cons e d ih =>
    have hce : c ≠ e := fun hc => hd (hc ▸ List.mem_cons_self e d)
    have hd' : c ∉ d := fun hc => hd (List.mem_cons_of_mem e hc)
    show findSplit (c :: cs) (e :: (d ++ s)) = _
    rw [findSplit]
    have hpre : (c :: cs).isPrefixOf (e :: (d ++ s)) = false := by
      simp [List.isPrefixOf, hce]
    rw [hpre]
    simp only [Bool.false_eq_true, if_false]
    rw [ih hd', Option.map_map]
    rfl

theorem occurs_append_free {c : Char} {cs d s : List Char} (hd : c ∉ d) :
    occurs (c :: cs) (d ++ s) = occurs (c :: cs) s := by
  unfold occurs
  rw [findSplit_append_free hd]
  cases findSplit (c :: cs) s with
  | none => rfl
  | some p => rfl

/-- Fence removal leaves no `"```"` fence in its output. -/
theorem stripFences_no_fence (s : List Char) :
    occurs fence (stripFences s) = false := by
  unfold stripFences
  by_cases h1 : occurs fenceHtml s = true
  · rw [if_pos h1]
    by_cases h2 : occurs fence (pySecond fenceHtml s) = true
    · rw [if_pos h2]
      exact not_occurs_beforeFirst ..
    · rw [if_neg h2]
      exact Bool.not_eq_true _ ▸ h2
  · rw [if_neg h1]
    by_cases h2 : occurs fence s = true
    · rw [if_pos h2]
      exact not_occurs_beforeFirst ..
    · rw [if_neg h2]
      exact Bool.not_eq_true _ ▸ h2

/-- The generic fence is a prefix of the html fence. -/
theorem fence_prefix_fenceHtml : fence <+: fenceHtml :=
  ⟨"html".toList, rfl⟩

theorem no_fenceHtml_of_no_fence {s : List Char}
    (h : occurs fence s = false) : occurs fenceHtml s = false := by
  by_contra hc
  rw [← ne_eq, Bool.ne_false_iff] at hc
  rw [occurs_mono_of_leading fence_prefix_fenceHtml hc] at h
  cases h

theorem fence_cons : fence = bq :: "``".toList := rfl

theorem dropWhile_cons_of_neg {p : Char → Bool} {c : Char} {l : List Char}
    (h : p c = false) : (c :: l).dropWhile p = c :: l := by
  simp [List.dropWhile_cons, h]

theorem head_dropWhile_false (p : Char → Bool) (l : List Char) {c : Char}
    {cs : List Char} (h : l.dropWhile p = c :: cs) : p c = false := by
  induction l with
  | nil => simp at h
  | cons a l ih =>
    rw [List.dropWhile_cons] at h
    by_cases hpa : p a = true
    · rw [if_pos hpa] at h; exact ih h
    · rw [if_neg hpa] at h
      injection h with h1 _
      rw [← h1]
      exact Bool.not_eq_true _ ▸ hpa

theorem pyStrip_prefix_dropWhile (s : List Char) :
    pyStrip s <+: s.dropWhile Char.isWhitespace := by
  unfold pyStrip
  conv_rhs => rw [← List.reverse_reverse (s.dropWhile Char.isWhitespace)]
  exact List.reverse_prefix.mpr (List.dropWhile_suffix _)

theorem pyStrip_inner (s : List Char) : pyStrip s <:+: s :=
  (pyStrip_prefix_dropWhile s).isInfix.trans (List.dropWhile_suffix _).isInfix

theorem pyStrip_idem (s : List Char) : pyStrip (pyStrip s) = pyStrip s := by
  have hA : (pyStrip s).dropWhile Char.isWhitespace = pyStrip s := by
    cases hx : pyStrip s with
    | nil => rfl
    | cons c t =>
      obtain ⟨w, hw⟩ := hx ▸ pyStrip_prefix_dropWhile s
      have hc : Char.isWhitespace c = false :=
        head_dropWhile_false Char.isWhitespace s
          (show s.dropWhile Char.isWhitespace = c :: (t ++ w) by
            rw [← hw, List.cons_append])
      exact dropWhile_cons_of_neg hc
  have hB : (pyStrip s).reverse.dropWhile Char.isWhitespace = (pyStrip s).reverse := by
    unfold pyStrip
    rw [List.reverse_reverse]
    exact List.dropWhile_idempotent _ _
  show (((pyStrip s).dropWhile Char.isWhitespace).reverse.dropWhile
      Char.isWhitespace).reverse = pyStrip s
  rw [hA, hB, List.reverse_reverse]

theorem doctypeLine_cons : doctypeLine = '<' :: "!DOCTYPE html>\n".toList := rfl

theorem pyStrip_doctypeLine_append {x : List Char} (hne : x ≠ [])
    (hxs : pyStrip x = x) : pyStrip (doctypeLine ++ x) = doctypeLine ++ x := by
  have hrevdrop : x.reverse.dropWhile Char.isWhitespace = x.reverse := by
    have h0 : ((x.dropWhile Char.isWhitespace).reverse.dropWhile
        Char.isWhitespace) = x.reverse := by
      have := congrArg List.reverse hxs
      rw [pyStrip] at this
      rw [← this, List.reverse_reverse]
    rw [← h0]
    exact List.dropWhile_idempotent _ _
  have hstep1 : (doctypeLine ++ x).dropWhile Char.isWhitespace =
      doctypeLine ++ x := by
    rw [doctypeLine_cons]
    exact dropWhile_cons_of_neg (by decide)
  have hxrev : x.reverse ≠ [] := fun hc => hne (by
    have := congrArg List.reverse hc
    rwa [List.reverse_reverse] at this)
  obtain ⟨c, t, hct⟩ := List.exists_cons_of_ne_nil hxrev
  have hc : Char.isWhitespace c = false :=
    head_dropWhile_false Char.isWhitespace x.reverse (hrevdrop.trans hct)
  have hstep2 : (x.reverse ++ doctypeLine.reverse).dropWhile Char.isWhitespace =
      x.reverse ++ doctypeLine.reverse := by
    rw [hct]
    exact dropWhile_cons_of_neg hc
  show (((doctypeLine ++ x).dropWhile Char.isWhitespace).reverse.dropWhile
      Char.isWhitespace).reverse = doctypeLine ++ x
  rw [hstep1, List.reverse_append, hstep2, List.reverse_append,
    List.reverse_reverse, List.reverse_reverse]

theorem doctypeTok_prefix_upper_doctypeLine_append (x : List Char) :
    doctypeTok.isPrefixOf ((doctypeLine ++ x).map Char.toUpper) = true := by
  apply List.isPrefixOf_iff_prefix.mpr
  rw [List.map_append]
  have hmap : doctypeLine.map Char.toUpper = "<!DOCTYPE HTML>\n".toList := by
    decide
  rw [hmap]
  exact ⟨" HTML>\n".toList ++ x.map Char.toUpper, rfl⟩

theorem ensureDoctype_doctypeLine_append (x : List Char) :
    ensureDoctype (doctypeLine ++ x) = doctypeLine ++ x := by
  unfold ensureDoctype
  rw [if_pos (doctypeTok_prefix_upper_doctypeLine_append x)]

theorem ensureDoctype_cases (x : List Char) :
    ensureDoctype x = x ∨ (ensureDoctype x = doctypeLine ++ x ∧ x ≠ []) := by
  unfold ensureDoctype
  by_cases h1 : doctypeTok.isPrefixOf (x.map Char.toUpper) = true
  · left; rw [if_pos h1]
  · rw [if_neg h1]
    by_cases h2 : htmlTok.isPrefixOf (x.map Char.toUpper) = true
    · right
      refine ⟨by rw [if_pos h2], ?_⟩
      intro hx
      subst hx
      exact absurd h2 (by decide)
    · left; rw [if_neg h2]

theorem ensureDoctype_idem (x : List Char) :
    ensureDoctype (ensureDoctype x) = ensureDoctype x := by
  rcases ensureDoctype_cases x with h | ⟨h, _⟩
  · rw [h, h]
  · rw [h, ensureDoctype_doctypeLine_append]

theorem stripFences_eq_self {t : List Char} (h : occurs fence t = false) :
    stripFences t = t := by
  unfold stripFences
  rw [if_neg, if_neg]
  · rw [h]; exact Bool.false_ne_true
  · rw [no_fenceHtml_of_no_fence h]; exact Bool.false_ne_true

theorem no_occurs_of_inner {sep s₁ s₂ : List Char} (hinf : s₁ <:+: s₂)
    (h : occurs sep s₂ = false) : occurs sep s₁ = false := by
  by_contra hc
  rw [← ne_eq, Bool.ne_false_iff] at hc
  rw [occurs_of_inner hinf hc] at h
  cases h

/-- C6: the HTML normalization routine `clean_html_response` is idempotent:
for every input string `s`, normalizing already-normalized output changes
nothing — no second doctype is inserted and no further fence-stripping is
applied. -/
theorem clean_html_response_idem (s : List Char) :
    clean_html_response (clean_html_response s) = clean_html_response s := by
  unfold clean_html_response
  have hx_nf : occurs fence (pyStrip (stripFences s)) = false :=
    no_occurs_of_inner (pyStrip_inner _) (stripFences_no_fence s)
  have hx_strip : pyStrip (pyStrip (stripFences s)) = pyStrip (stripFences s) :=
    pyStrip_idem _
  rcases ensureDoctype_cases (pyStrip (stripFences s)) with hy | ⟨hy, hne⟩
  · rw [hy, stripFences_eq_self hx_nf, hx_strip, hy]
  · rw [hy]
    have hd_nf : occurs fence (doctypeLine ++ pyStrip (stripFences s)) = false := by
      rw [fence_cons, occurs_append_free (by decide), ← fence_cons]
      exact hx_nf
    rw [stripFences_eq_self hd_nf, pyStrip_doctypeLine_append hne hx_strip,
      ensureDoctype_doctypeLine_append]

theorem fenceHtml_cons : fenceHtml = bq :: "``html".toList := rfl

theorem fenceHtml_cons3 : fenceHtml = bq :: bq :: bq :: "html".toList := rfl

theorem fence_cons3 : fence = bq :: bq :: bq :: [] := rfl

theorem occurs_tail_of_cons {sep cs : List Char} {c : Char}
    (h : occurs sep (c :: cs) = false) : occurs sep cs = false := by
  by_contra hc
  rw [← ne_eq, Bool.ne_false_iff] at hc
  rw [occurs_cons_of_tail c hc] at h
  cases h

theorem findSplit_eq_none_of_not_occurs {sep s : List Char}
    (h : occurs sep s = false) : findSplit sep s = none := by
  unfold occurs at h
  cases hx : findSplit sep s with
  | none => rfl
  | some _ => rw [hx] at h; simp at h

theorem not_occurs_of_head_notMem {c : Char} {cs s : List Char} (h : c ∉ s) :
    occurs (c :: cs) s = false := by
  induction s with
  | nil => rfl
  | cons d ds ih =>
    have hcd : c ≠ d := fun hc => h (hc ▸ List.mem_cons_self d ds)
    have hds : c ∉ ds := fun hc => h (List.mem_cons_of_mem d hc)
    unfold occurs findSplit
    have hpre : (c :: cs).isPrefixOf (d :: ds) = false := by
      simp [List.isPrefixOf, hcd]
    rw [hpre]
    simp only [Bool.false_eq_true, if_false]
    rw [findSplit_eq_none_of_not_occurs (ih hds)]
    rfl

theorem np_fenceHtml {q : List Char} (t : List Char)
    (hq : occurs fence q = false) (hne : q ≠ []) :
    fenceHtml.isPrefixOf (q ++ (fenceHtml ++ t)) = false := by
  obtain ⟨c, q', rfl⟩ := List.exists_cons_of_ne_nil hne
  cases q' with
  | nil =>
    show (bq :: "``html".toList).isPrefixOf (c :: (fenceHtml ++ t)) = false
    simp only [List.isPrefixOf]
    simp
  | cons c' q'' =>
    cases q'' with
    | nil =>
      show (bq :: bq :: "`html".toList).isPrefixOf
        (c :: c' :: (fenceHtml ++ t)) = false
      simp only [List.isPrefixOf]
      simp
    | cons c'' rest =>
      by_cases h1 : c = bq
      · by_cases h2 : c' = bq
        · by_cases h3 : c'' = bq
          · exfalso
            subst h1; subst h2; subst h3
            have : fence.isPrefixOf (bq :: bq :: bq :: rest) = true := by
              rw [fence_cons3]
              simp [List.isPrefixOf]
            rw [occurs_of_isPrefixOf this] at hq
            cases hq
          · show (bq :: bq :: bq :: "html".toList).isPrefixOf
              (c :: c' :: c'' :: (rest ++ (fenceHtml ++ t))) = false
            simp only [List.isPrefixOf]
            rw [show (bq == c'') = false from
              beq_eq_false_iff_ne.mpr (Ne.symm h3)]
            simp
        · show (bq :: bq :: bq :: "html".toList).isPrefixOf
            (c :: c' :: c'' :: (rest ++ (fenceHtml ++ t))) = false
          simp only [List.isPrefixOf]
          rw [show (bq == c') = false from beq_eq_false_iff_ne.mpr (Ne.symm h2)]
          simp
      · show (bq :: bq :: bq :: "html".toList).isPrefixOf
          (c :: c' :: c'' :: (rest ++ (fenceHtml ++ t))) = false
        simp only [List.isPrefixOf]
        rw [show (bq == c) = false from beq_eq_false_iff_ne.mpr (Ne.symm h1)]
        simp

theorem findSplit_marker_fenceHtml {p : List Char} (t : List Char)
    (hp : occurs fence p = false) :
    findSplit fenceHtml (p ++ (fenceHtml ++ t)) = some (p, t) := by
  induction p with
  | nil =>
    show findSplit fenceHtml (bq :: ("``html".toList ++ t)) = some ([], t)
    unfold findSplit
    have hpre : fenceHtml.isPrefixOf (bq :: ("``html".toList ++ t)) = true :=
      List.isPrefixOf_iff_prefix.mpr ⟨t, rfl⟩
    rw [if_pos hpre]
    rw [show (bq :: ("``html".toList ++ t)) = fenceHtml ++ t from rfl,
      List.drop_left]
  | cons c p' ih =>
    have hp' : occurs fence p' = false := occurs_tail_of_cons hp
    show findSplit fenceHtml (c :: (p' ++ (fenceHtml ++ t))) = some (c :: p', t)
    unfold findSplit
    have hnp : fenceHtml.isPrefixOf (c :: (p' ++ (fenceHtml ++ t))) = false :=
      np_fenceHtml t hp (List.cons_ne_nil c p')
    rw [if_neg (by rw [hnp]; exact Bool.false_ne_true)]
    rw [ih hp']
    rfl

theorem np_fence {q : List Char} (t : List Char)
    (hq : occurs fence q = false) (hlast : q.getLast? ≠ some bq) (hne : q ≠ []) :
    fence.isPrefixOf (q ++ (fence ++ t)) = false := by
  obtain ⟨c, q', rfl⟩ := List.exists_cons_of_ne_nil hne
  cases q' with
  | nil =>
    have hc : c ≠ bq := fun h => hlast (by rw [h]; rfl)
    show (bq :: bq :: bq :: []).isPrefixOf (c :: (fence ++ t)) = false
    simp only [List.isPrefixOf]
    rw [show (bq == c) = false from beq_eq_false_iff_ne.mpr (Ne.symm hc)]
    simp
  | cons c' q'' =>
    cases q'' with
    | nil =>
      have hc' : c' ≠ bq := fun h => hlast (by rw [h]; rfl)
      show (bq :: bq :: bq :: []).isPrefixOf (c :: c' :: (fence ++ t)) = false
      simp only [List.isPrefixOf]
      rw [show (bq == c') = false from beq_eq_false_iff_ne.mpr (Ne.symm hc')]
      simp
    | cons c'' rest =>
      by_cases h1 : c = bq
      · by_cases h2 : c' = bq
        · by_cases h3 : c'' = bq
          · exfalso
            subst h1; subst h2; subst h3
            have : fence.isPrefixOf (bq :: bq :: bq :: rest) = true := by
              rw [fence_cons3]
              simp [List.isPrefixOf]
            rw [occurs_of_isPrefixOf this] at hq
            cases hq
          · show (bq :: bq :: bq :: []).isPrefixOf
              (c :: c' :: c'' :: (rest ++ (fence ++ t))) = false
            simp only [List.isPrefixOf]
            rw [show (bq == c'') = false from
              beq_eq_false_iff_ne.mpr (Ne.symm h3)]
            simp
        · show (bq :: bq :: bq :: []).isPrefixOf
            (c :: c' :: c'' :: (rest ++ (fence ++ t))) = false
          simp only [List.isPrefixOf]
          rw [show (bq == c') = false from beq_eq_false_iff_ne.mpr (Ne.symm h2)]
          simp
      · show (bq :: bq :: bq :: []).isPrefixOf
          (c :: c' :: c'' :: (rest ++ (fence ++ t))) = false
        simp only [List.isPrefixOf]
        rw [show (bq == c) = false from beq_eq_false_iff_ne.mpr (Ne.symm h1)]
        simp

theorem findSplit_marker_fence {i : List Char} (t : List Char)
    (hi : occurs fence i = false) (hlast : i.getLast? ≠ some bq) :
    findSplit fence (i ++ (fence ++ t)) = some (i, t) := by
  induction i with
  | nil =>
    show findSplit fence (bq :: ("``".toList ++ t)) = some ([], t)
    unfold findSplit
    have hpre : fence.isPrefixOf (bq :: ("``".toList ++ t)) = true :=
      List.isPrefixOf_iff_prefix.mpr ⟨t, rfl⟩
    rw [if_pos hpre]
    rw [show (bq :: ("``".toList ++ t)) = fence ++ t from rfl, List.drop_left]
  | cons c i' ih =>
    have hi' : occurs fence i' = false := occurs_tail_of_cons hi
    have hlast' : i'.getLast? ≠ some bq := by
      cases i' with
      | nil => simp
      | cons d ds =>
        intro hc
        apply hlast
        rw [List.getLast?_cons_cons]
        exact hc
    show findSplit fence (c :: (i' ++ (fence ++ t))) = some (c :: i', t)
    unfold findSplit
    have hnp : fence.isPrefixOf (c :: (i' ++ (fence ++ t))) = false :=
      np_fence t hi hlast (List.cons_ne_nil c i')
    rw [if_neg (by rw [hnp]; exact Bool.false_ne_true)]
    rw [ih hi' hlast']
    rfl

theorem no_fenceHtml_in_tail {i : List Char} (suf : List Char)
    (hi : occurs fence i = false) (hlast : i.getLast? ≠ some bq)
    (hsb : bq ∉ suf) (hsh : ("html".toList).isPrefixOf suf = false) :
    occurs fenceHtml (i ++ (fence ++ suf)) = false := by
  induction i with
  | nil =>
    show occurs fenceHtml (bq :: bq :: bq :: suf) = false
    have h1 : fenceHtml.isPrefixOf (bq :: bq :: bq :: suf) = false := by
      show (bq :: bq :: bq :: "html".toList).isPrefixOf
        (bq :: bq :: bq :: suf) = false
      simp only [List.isPrefixOf]
      rw [hsh]
      simp
    have h2 : fenceHtml.isPrefixOf (bq :: bq :: suf) = false := by
      cases suf with
      | nil => decide
      | cons d ds =>
        have hd : d ≠ bq := fun h => hsb (h ▸ List.mem_cons_self d ds)
        show (bq :: bq :: bq :: "html".toList).isPrefixOf
          (bq :: bq :: d :: ds) = false
        simp only [List.isPrefixOf]
        rw [show (bq == d) = false from beq_eq_false_iff_ne.mpr (Ne.symm hd)]
        simp
    have h3 : fenceHtml.isPrefixOf (bq :: suf) = false := by
      cases suf with
      | nil => decide
      | cons d ds =>
        have hd : d ≠ bq := fun h => hsb (h ▸ List.mem_cons_self d ds)
        show (bq :: bq :: bq :: "html".toList).isPrefixOf
          (bq :: d :: ds) = false
        simp only [List.isPrefixOf]
        rw [show (bq == d) = false from beq_eq_false_iff_ne.mpr (Ne.symm hd)]
        simp
    have h4 : findSplit fenceHtml suf = none := by
      apply findSplit_eq_none_of_not_occurs
      rw [fenceHtml_cons]
      exact not_occurs_of_head_notMem hsb
    unfold occurs findSplit
    rw [if_neg (by rw [h1]; exact Bool.false_ne_true)]
    unfold findSplit
    rw [if_neg (by rw [h2]; exact Bool.false_ne_true)]
    unfold findSplit
    rw [if_neg (by rw [h3]; exact Bool.false_ne_true)]
    rw [h4]
    rfl
  | cons c i' ih =>
    have hi' : occurs fence i' = false := occurs_tail_of_cons hi
    have hlast' : i'.getLast? ≠ some bq := by
      cases i' with
      | nil => simp
      | cons d ds =>
        intro hc
        apply hlast
        rw [List.getLast?_cons_cons]
        exact hc
    have hnp : fenceHtml.isPrefixOf (c :: (i' ++ (fence ++ suf))) = false := by
      cases i' with
      | nil =>
        have hc : c ≠ bq := fun h => hlast (by rw [h]; rfl)
        show (bq :: bq :: bq :: "html".toList).isPrefixOf
          (c :: (fence ++ suf)) = false
        simp only [List.isPrefixOf]
        rw [show (bq == c) = false from beq_eq_false_iff_ne.mpr (Ne.symm hc)]
        simp
      | cons c' i'' =>
        cases i'' with
        | nil =>
          have hc' : c' ≠ bq := fun h => hlast (by rw [h]; rfl)
          show (bq :: bq :: bq :: "html".toList).isPrefixOf
            (c :: c' :: (fence ++ suf)) = false
          simp only [List.isPrefixOf]
          rw [show (bq == c') = false from
            beq_eq_false_iff_ne.mpr (Ne.symm hc')]
          simp
        | cons c'' rest =>
          by_cases h1 : c = bq
          · by_cases h2 : c' = bq
            · by_cases h3 : c'' = bq
              · exfalso
                subst h1; subst h2; subst h3
                have : fence.isPrefixOf (bq :: bq :: bq :: rest) = true := by
                  rw [fence_cons3]
                  simp [List.isPrefixOf]
                rw [occurs_of_isPrefixOf this] at hi
                cases hi
              · show (bq :: bq :: bq :: "html".toList).isPrefixOf
                  (c :: c' :: c'' :: (rest ++ (fence ++ suf))) = false
                simp only [List.isPrefixOf]
                rw [show (bq == c'') = false from
                  beq_eq_false_iff_ne.mpr (Ne.symm h3)]
                simp
            · show (bq :: bq :: bq :: "html".toList).isPrefixOf
                (c :: c' :: c'' :: (rest ++ (fence ++ suf))) = false
              simp only [List.isPrefixOf]
              rw [show (bq == c') = false from
                beq_eq_false_iff_ne.mpr (Ne.symm h2)]
              simp
          · show (bq :: bq :: bq :: "html".toList).isPrefixOf
              (c :: c' :: c'' :: (rest ++ (fence ++ suf))) = false
            simp only [List.isPrefixOf]
            rw [show (bq == c) = false from
              beq_eq_false_iff_ne.mpr (Ne.symm h1)]
            simp
    show occurs fenceHtml (c :: (i' ++ (fence ++ suf))) = false
    unfold occurs findSplit
    rw [if_neg (by rw [hnp]; exact Bool.false_ne_true)]
    rw [show findSplit fenceHtml (i' ++ (fence ++ suf)) = none from
      findSplit_eq_none_of_not_occurs (ih hi' hlast')]
    rfl

/-- C7 (amended): for input `prefixPart ++ "```html" ++ interior ++ "```" ++
suffixPart`, the normalization routine returns exactly the interior with
surrounding whitespace trimmed, prefixed with the doctype line when the
trimmed interior starts with an HTML root tag but no doctype — provided
the prefix part contains no `"```"`, the interior contains no `"```"` and
does not end in a backquote, and the suffix part contains no backquote and
does not begin with `"html"` (otherwise the scanner latches onto a
different fence, see the counterexample); and for input containing no
fence marker at all, the routine returns the input unchanged apart from
trimming and possible doctype prepending. -/
theorem clean_html_response_fenced :
    (∀ p i suf : List Char,
      occurs fence p = false →
      occurs fence i = false →
      i.getLast? ≠ some bq →
      bq ∉ suf →
      ("html".toList).isPrefixOf suf = false →
      clean_html_response (p ++ (fenceHtml ++ (i ++ (fence ++ suf)))) =
        ensureDoctype (pyStrip i)) ∧
    (∀ s : List Char, occurs fence s = false →
      clean_html_response s = ensureDoctype (pyStrip s)) := by
  constructor
  · intro p i suf hp hi hlast hsb hsh
    have h1 : findSplit fenceHtml (p ++ (fenceHtml ++ (i ++ (fence ++ suf)))) =
        some (p, i ++ (fence ++ suf)) := findSplit_marker_fenceHtml _ hp
    have hocc : occurs fenceHtml (p ++ (fenceHtml ++ (i ++ (fence ++ suf)))) =
        true := by unfold occurs; rw [h1]; rfl
    have hr : pySecond fenceHtml (p ++ (fenceHtml ++ (i ++ (fence ++ suf)))) =
        i ++ (fence ++ suf) := by
      unfold pySecond afterFirst
      rw [h1]
      simp only [Option.map_some', Option.getD_some]
      unfold beforeFirst
      rw [findSplit_eq_none_of_not_occurs
        (no_fenceHtml_in_tail suf hi hlast hsb hsh)]
      rfl
    have hocc2 : occurs fence (i ++ (fence ++ suf)) = true := by
      apply occurs_append_right
      exact occurs_of_isPrefixOf
        (show fence.isPrefixOf (bq :: ("``".toList ++ suf)) = true from
          List.isPrefixOf_iff_prefix.mpr ⟨suf, rfl⟩)
    have hbf : beforeFirst fence (i ++ (fence ++ suf)) = i := by
      unfold beforeFirst
      rw [findSplit_marker_fence suf hi hlast]
      rfl
    have hsf : stripFences (p ++ (fenceHtml ++ (i ++ (fence ++ suf)))) = i := by
      simp only [stripFences]
      rw [if_pos hocc, hr, if_pos hocc2, hbf]
    unfold clean_html_response
    rw [hsf]
  · intro s h
    unfold clean_html_response
    rw [stripFences_eq_self h]

/-- C7 (counterexample): the claim fails without side conditions on the
decomposition.  With prefix `"```htmlA```"`, interior `"B"`, the routine
returns `"A"`, not the interior `"B"`; with interior `"x``"` it returns
`"x"`; with interior `"x"` and suffix `"`html"` it returns `"x`"`. -/
theorem clean_html_response_fenced_cex :
    clean_html_response ("```htmlA```".toList ++
        (fenceHtml ++ ("B".toList ++ (fence ++ ([] : List Char))))) ≠
      ensureDoctype (pyStrip "B".toList) ∧
    clean_html_response (([] : List Char) ++
        (fenceHtml ++ ("x``".toList ++ (fence ++ ([] : List Char))))) ≠
      ensureDoctype (pyStrip "x``".toList) ∧
    clean_html_response (([] : List Char) ++
        (fenceHtml ++ ("x".toList ++ (fence ++ "`html".toList)))) ≠
      ensureDoctype (pyStrip "x".toList) := by
  refine ⟨?_, ?_, ?_⟩ <;> decide

/-- Witness for C7: the amended theorem applied at a concrete fenced
input. -/
theorem clean_html_response_fenced_witness :
    clean_html_response ("pre ".toList ++
        (fenceHtml ++ ("\n<html>hi</html>\n".toList ++
          (fence ++ " post".toList)))) =
      "<!DOCTYPE html>\n<html>hi</html>".toList :=
  (clean_html_response_fenced.1 "pre ".toList "\n<html>hi</html>\n".toList
    " post".toList (by decide) (by decide) (by decide) (by decide)
    (by decide)).trans (by decide)

/-! ### Claim theorems for the workflow stages -/

/-- C1: the Router `_route_after_validation` is a pure function (a Lean
`def`) of `(validationPassed, refinementIteration,
maxRefinementIterations)` with `state.get` defaults `false`, `0`, `3` for
missing fields: when validationPassed it returns `"finalize"` regardless
of the counters; otherwise `"finalize"` when `refinementIteration ≥
maxRefinementIterations` and `"refine"` when `refinementIteration <
maxRefinementIterations`; and its value depends only on the three
defaulted reads. -/
theorem route_after_validation_spec (st : RouterState) :
    (st.validation_passed.getD false = true →
      route_after_validation st = "finalize") ∧
    (st.validation_passed.getD false = false →
      st.max_refinement_iterations.getD 3 ≤ st.refinement_iteration.getD 0 →
      route_after_validation st = "finalize") ∧
    (st.validation_passed.getD false = false →
      st.refinement_iteration.getD 0 < st.max_refinement_iterations.getD 3 →
      route_after_validation st = "refine") ∧
    route_after_validation st = route_after_validation
      { validation_passed := some (st.validation_passed.getD false),
        refinement_iteration := some (st.refinement_iteration.getD 0),
        max_refinement_iterations :=
          some (st.max_refinement_iterations.getD 3) } := by
  refine ⟨fun h => ?_, fun h h2 => ?_, fun h h2 => ?_, ?_⟩
  · simp [route_after_validation, h]
  · simp only [route_after_validation, h, Bool.false_eq_true, if_false]
    rw [if_pos h2]
  · simp only [route_after_validation, h, Bool.false_eq_true, if_false]
    rw [if_neg (by omega)]
  · simp [route_after_validation]

/-- Witness for C1: with validation failed at iteration 1 of 3 the router
refines; with validation passed it finalizes. -/
theorem route_after_validation_spec_witness :
    route_after_validation
      { validation_passed := some false, refinement_iteration := some 1,
        max_refinement_iterations := some 3 } = "refine" ∧
    route_after_validation
      { validation_passed := some true, refinement_iteration := some 9,
        max_refinement_iterations := some 3 } = "finalize" :=
  ⟨(route_after_validation_spec _).2.2.1 rfl (by decide),
   (route_after_validation_spec _).1 rfl⟩

/-- C5: the `next_step` computed inside the Validation stage equals the
standalone Router's output for every combination of the judgment and the
two counter reads — the two routing computations are extensionally equal. -/
theorem validation_next_step_eq_router (passed : Bool) (itF mxF : Option Nat) :
    validation_next_step passed itF mxF =
      route_after_validation
        { validation_passed := some passed, refinement_iteration := itF,
          max_refinement_iterations := mxF } := by
  unfold validation_next_step route_after_validation
  simp only [Option.getD_some]
  cases passed with
  | true => simp
  | false =>
    simp only [Bool.false_eq_true, if_false]
    rcases Nat.lt_or_ge (itF.getD 0) (mxF.getD 3) with h | h
    · rw [if_pos h, if_neg (by omega)]
    · rw [if_neg (by omega), if_pos h]

/-- C4: the validation judgment is passed exactly when the upper-cased
judge response contains `"PASS"` and not `"FAIL"`; `FAIL` wins whenever
both tokens are present; and a raising judge call defaults to
`passed = false`. -/
theorem analyze_validation_report_spec :
    (∀ t, (analyze_validation_report (Except.ok t)).passed = true ↔
      (occurs passTok (upperL t) = true ∧ occurs failTok (upperL t) = false)) ∧
    (∀ t, occurs passTok (upperL t) = true → occurs failTok (upperL t) = true →
      (analyze_validation_report (Except.ok t)).passed = false) ∧
    (∀ e, (analyze_validation_report (Except.error e)).passed = false) := by
  refine ⟨fun t => ?_, fun t hp hf => ?_, fun e => rfl⟩
  · simp [analyze_validation_report, Bool.and_eq_true, Bool.not_eq_true']
  · simp [analyze_validation_report, hp, hf]

/-- Witness for C4: a response containing both tokens fails. -/
theorem analyze_validation_report_spec_witness :
    (analyze_validation_report
      (Except.ok "it could pass, but: FAIL".toList)).passed = false :=
  analyze_validation_report_spec.2.1 "it could pass, but: FAIL".toList
    (by decide) (by decide)

/-- C2 (counterexample): at `refinement_iteration = 2`,
`max_refinement_iterations = 3`, a failing delegated call returns an
update whose `refinement_iteration` key is absent — not `3` as the claim
requires of every invocation. -/
theorem refinement_process_cex :
    (refinement_process (Except.error "boom") (some gc_example)
      (some vr_example) (some 2) (some 3)).refinement_iteration ≠
      some 3 := by
  decide

/-- C2 (amended): the Refinement stage's update carries
`refinement_iteration = incoming + 1` on every successful delegated call,
and on a failing delegated call only when `incoming < max - 1` (Python
integer arithmetic); when a failing call happens at
`incoming ≥ max - 1` the update omits the `refinement_iteration` key
entirely. -/
theorem refinement_process_iteration (gc : GeneratedCode)
    (vr : ValidationReport) (itF mxF : Option Nat) :
    (∀ content, (refinement_process (Except.ok content) (some gc) (some vr)
        itF mxF).refinement_iteration = some (itF.getD 0 + 1)) ∧
    (∀ e, (itF.getD 0 : Int) < (mxF.getD 3 : Int) - 1 →
      (refinement_process (Except.error e) (some gc) (some vr)
        itF mxF).refinement_iteration = some (itF.getD 0 + 1)) ∧
    (∀ e, (itF.getD 0 : Int) ≥ (mxF.getD 3 : Int) - 1 →
      (refinement_process (Except.error e) (some gc) (some vr)
        itF mxF).refinement_iteration = none) := by
  refine ⟨fun content => rfl, fun e h => ?_, fun e h => ?_⟩
  · unfold refinement_process
    dsimp only
    rw [if_neg (by omega)]
  · unfold refinement_process
    dsimp only
    rw [if_pos h]

/-- Witness for C2: below the give-up threshold a failing call still
increments the counter. -/
theorem refinement_process_iteration_witness :
    (refinement_process (Except.error "x") (some gc_example)
      (some vr_example) (some 0) (some 3)).refinement_iteration = some 1 :=
  (refinement_process_iteration gc_example vr_example (some 0) (some 3)).2.1
    "x" (by decide)

/-- C3 (counterexample): `ValidationAgent.process` on a state whose
`generated_code` key is absent raises `KeyError` to the caller instead of
returning a partial-update dictionary. -/
theorem validation_process_cex :
    validation_process true true (Except.ok passing_report)
      (Except.ok "PASS".toList)
      { generated_code := DictField.absent, refinement_iteration := none,
        max_refinement_iterations := none } =
      Except.error "KeyError: generated_code" := rfl

/-- C3 (amended): the Validation and Code Generation stages return a
partial-update dictionary and never raise, for every delegated-call
outcome and every state in which the keys the source subscripts directly
are present — their values may be `None`; when such a key is absent the
subscript raises `KeyError` (see the counterexample). -/
theorem process_no_raise :
    (∀ (ebt hbt : Bool) (browser : Except String ValidationReport)
        (llm : Except String (List Char)) (st : VState),
      st.generated_code ≠ DictField.absent →
      ∃ u, validation_process ebt hbt browser llm st = Except.ok u) ∧
    (∀ (llm : Except String (List Char)) (st : CGState),
      st.feature_plan ≠ DictField.absent →
      st.branding_data ≠ DictField.absent →
      st.braze_api_config ≠ DictField.absent →
      ∃ u, code_generation_process llm st = Except.ok u) := by
  constructor
  · intro ebt hbt browser llm st h
    unfold validation_process
    cases hgc : st.generated_code with
    | absent => exact absurd hgc h
    | pynone => exact ⟨_, rfl⟩
    | val gc => exact ⟨_, rfl⟩
  · intro llm st h1 h2 h3
    unfold code_generation_process
    cases hfp : st.feature_plan <;> cases hbd : st.branding_data <;>
      cases hbc : st.braze_api_config <;>
      first
        | exact absurd hfp h1
        | exact absurd hbd h2
        | exact absurd hbc h3
        | exact ⟨_, rfl⟩
        | (cases llm <;> exact ⟨_, rfl⟩)

/-- Witness for C3: both stages return updates on states whose subscripted
keys are present with value `None`. -/
theorem process_no_raise_witness :
    (∃ u, validation_process false false (Except.error "b")
      (Except.error "l")
      { generated_code := DictField.pynone, refinement_iteration := none,
        max_refinement_iterations := none } = Except.ok u) ∧
    (∃ u, code_generation_process (Except.error "l")
      { feature_plan := DictField.pynone, branding_data := DictField.pynone,
        braze_api_config := DictField.pynone } = Except.ok u) :=
  ⟨process_no_raise.1 false false (Except.error "b") (Except.error "l") _
      (by decide),
   process_no_raise.2 (Except.error "l") _ (by decide) (by decide)
      (by decide)⟩

/-- C8: the default fallback plan is a deterministic function (a Lean
`def`) of the URL; it always contains exactly 2 features; for URL
`https://www.acme-corp.io/products` the page title contains
`"Acme-corp"`; and with no URL the page title contains `"Customer"`. -/
theorem create_default_plan_spec :
    (∀ req url, (create_default_plan req url).features.length = 2) ∧
    occurs "Acme-corp".toList
      (create_default_plan "r".toList
        (some "https://www.acme-corp.io/products".toList)).page_title =
      true ∧
    occurs "Customer".toList
      (create_default_plan "r".toList none).page_title = true := by
  refine ⟨fun req url => rfl, by decide, by decide⟩

theorem startAdjacent_nil : startAdjacent [] := by
  intro i n s h
  simp at h

theorem startAdjacent_cons_nonstart {l : List StreamEvent} {e : StreamEvent}
    (he : ∀ n s, e ≠ StreamEvent.node_start n s) (h : startAdjacent l) :
    startAdjacent (e :: l) := by
  intro i n s hi
  cases i with
  | zero =>
    simp at hi
    exact absurd hi (he n s)
  | succ j =>
    obtain ⟨s2, hs2⟩ := h j n s (by simpa using hi)
    exact ⟨s2, by simpa using hs2⟩

theorem startAdjacent_pair {l : List StreamEvent} (n s s2 : String)
    (h : startAdjacent l) :
    startAdjacent (StreamEvent.node_start n s ::
      StreamEvent.node_complete n s2 :: l) := by
  intro i m sm hi
  match i with
  | 0 =>
    simp [StreamEvent.node_start.injEq] at hi
    exact ⟨s2, by simp [hi.1]⟩
  | 1 => simp at hi
  | (j + 2) =>
    obtain ⟨t, ht⟩ := h j m sm (by simpa using hi)
    exact ⟨t, by simpa using ht⟩

theorem startAdjacent_append_nonstarts {t l : List StreamEvent}
    (ht : ∀ e ∈ t, ∀ n s, e ≠ StreamEvent.node_start n s)
    (h : startAdjacent l) : startAdjacent (t ++ l) := by
  induction t with
  | nil => simpa
  | cons e t ih =>
    have he := ht e (List.mem_cons_self e t)
    have ht' := fun e' he' => ht e' (List.mem_cons_of_mem e he')
    exact startAdjacent_cons_nonstart he (ih ht')

theorem err_events_nonstart (c : Chunk) :
    ∀ e ∈ err_events c, ∀ n s, e ≠ StreamEvent.node_start n s := by
  intro e he n s
  unfold err_events at he
  rcases hx : c.output.error with _ | e'
  · rw [hx] at he
    simp at he
  · rw [hx] at he
    dsimp only at he
    by_cases hz : e' == ""
    · rw [if_pos hz] at he
      simp at he
    · rw [if_neg hz] at he
      simp at he
      rw [he]
      intro hc
      cases hc

theorem msg_events_nonstart (c : Chunk) :
    ∀ e ∈ msg_events c, ∀ n s, e ≠ StreamEvent.node_start n s := by
  intro e he n s
  unfold msg_events at he
  rcases hx : c.output.messages.getLast? with _ | m
  · rw [hx] at he
    simp at he
  · rw [hx] at he
    dsimp only at he
    by_cases hz : m == ""
    · rw [if_pos hz] at he
      simp at he
    · rw [if_neg hz] at he
      simp at he
      rw [he]
      intro hc
      cases hc

theorem startAdjacent_complete_events (chunks : List Chunk) :
    startAdjacent (complete_events chunks) := by
  unfold complete_events
  rcases hx : chunks.getLast? with _ | c
  · exact startAdjacent_nil
  · dsimp only
    rcases hy : c.output.export_file_path with _ | pth
    · exact startAdjacent_nil
    · exact startAdjacent_cons_nonstart
        (fun n s hc => StreamEvent.noConfusion hc) startAdjacent_nil

theorem startAdjacent_flatMap (cs : List Chunk) (rest : List StreamEvent)
    (h : startAdjacent rest) :
    startAdjacent (cs.flatMap chunk_events ++ rest) := by
  induction cs with
  | nil => simpa
  | cons c cs ih =>
    rw [List.flatMap_cons, List.append_assoc]
    show startAdjacent (StreamEvent.node_start c.node _ ::
      StreamEvent.node_complete c.node _ ::
      ((err_events c ++ msg_events c) ++ (cs.flatMap chunk_events ++ rest)))
    apply startAdjacent_pair
    apply startAdjacent_append_nonstarts
    · intro e he n s
      rcases List.mem_append.mp he with h1 | h2
      · exact err_events_nonstart c e h1 n s
      · exact msg_events_nonstart c e h2 n s
    · exact ih

/-- C10: in streaming execution, the `node_start` event for a node is
immediately followed by the `node_complete` event for the same node: both
are emitted from the same chunk of `graph.stream`, and LangGraph yields a
chunk only after the node in it has finished executing — which is how
`Chunk` is modelled — so no streamed event for a node precedes that
node's execution. -/
theorem stream_workflow_start_adjacent (chunks : List Chunk)
    (exc : Option String) : startAdjacent (stream_workflow chunks exc) := by
  cases exc with
  | some e =>
    exact startAdjacent_flatMap chunks _
      (startAdjacent_cons_nonstart
        (fun n s hc => StreamEvent.noConfusion hc) startAdjacent_nil)
  | none =>
    exact startAdjacent_flatMap chunks _ (startAdjacent_complete_events chunks)

/-- Witness for C10: in a one-chunk research run, the event after the
`node_start` for research is its `node_complete`. -/
theorem stream_workflow_start_adjacent_witness :
    ∃ s2, (stream_workflow [{ node := "research", output := out_example }]
      none).get? 1 = some (StreamEvent.node_complete "research" s2) :=
  stream_workflow_start_adjacent
    [{ node := "research", output := out_example }] none 0 "research"
    "Starting research..." (by decide)

/-- C9 (the code lacks cancellation): the streaming interface never yields
an event whose type is `"cancelled"`, whatever chunks the graph produced
and however the run ended — there is no cancellation path in
`stream_workflow` or `generate_streaming` at all. -/
theorem stream_workflow_no_cancelled (chunks : List Chunk)
    (exc : Option String) :
    ((stream_workflow chunks exc).map eventType).contains "cancelled" =
      false := by
  have hall : ∀ l : List StreamEvent,
      (l.map eventType).contains "cancelled" = false := by
    intro l
    induction l with
    | nil => rfl
    | cons e l ih =>
      rw [List.map_cons, List.contains_cons]
      rw [ih]
      cases e <;> simp [eventType]
  exact hall _

end BrazeSpec
